import Mathlib

/-!
# Verification of the nixpkgs-index core

Shallow embedding of the decision logic of the `nixpkgs-index` tool:

* the time-interval commit-sampling functions
  (`src/nixpkgs_index/github.py`: `calculate_target_times`,
  `create_query_window`, `GitHubClient.discover_commits_at_intervals`),
* the version-index merge/update algorithm and its serialization ordering
  (`src/nixpkgs_index/index.py`: `Index.update_version`,
  `Index._should_update_based_on_store_paths`, `Index.save`, `Index.load`),
* the validator's scan/filter/error decision logic
  (`src/nixpkgs_index/validate.py`: `validate_index`).

Modelling conventions:

* Python `datetime` instants and `timedelta` durations are modelled as
  integers on a common timeline (e.g. seconds); `datetime` arithmetic and
  comparison are linear-order arithmetic on that timeline.
* Python `dict` objects are modelled as association lists; a Python dict
  never holds a key twice, and dict assignment replaces the value in place
  for an existing key and appends a new key at the end.  `dict` equality
  (`==`) compares key sets and the value at each key, ignoring insertion
  order.
* Network and subprocess collaborators (the GitHub commit provider, the
  `nix` store-path and test runners, the current-system probe) are passed
  in as function parameters: the embedded functions are the pure decision
  logic of the source, parametric in the collaborators' answers.
* Fallible code (`raise` in Python) is embedded with `Except`.
-/

namespace NixpkgsIndex

/-- A point in time (Python `datetime`), as an integer on a fixed timeline. -/
abbrev Instant := Int

/-- A duration (Python `timedelta`), as an integer on the same timeline. -/
abbrev Duration := Int

/-! ## Time-Window Sampler (`github.py`) -/

/-- `TimeWindow` from `github.py`: a time window for querying commits.
The Python field `end` is a Lean keyword and is rendered `stop`. -/
structure TimeWindow where
  start : Instant
  stop : Instant
deriving Repr, DecidableEq

/-- The body of the `for step in range(1, max_steps + 1)` loop of
`calculate_target_times`, over the explicit list of step numbers.
`break` on `since and target_time < since` is the early `[]` return. -/
def targetTimesLoop (start_time : Instant) (step_interval : Duration)
    (since : Option Instant) : List Nat → List Instant
  | [] => []
  | step :: rest =>
    let target_time := start_time - step_interval * (step : Int)
    match since with
    | some s =>
      if target_time < s then []
      else target_time :: targetTimesLoop start_time step_interval (some s) rest
    | none => target_time :: targetTimesLoop start_time step_interval none rest

/-- `calculate_target_times` from `github.py`: target times at regular
intervals going backwards from `start_time`, reversed to chronological
(oldest first) order before returning. -/
def calculate_target_times (start_time : Instant) (step_interval : Duration)
    (max_steps : Nat) (since : Option Instant := none) : List Instant :=
  (targetTimesLoop start_time step_interval since (List.range' 1 max_steps)).reverse

/-- `create_query_window` from `github.py`; the default `window_size` of one
hour is 3600 on the seconds timeline. -/
def create_query_window (target_time : Instant)
    (window_size : Duration := 3600) : TimeWindow :=
  ⟨target_time - window_size, target_time + window_size⟩

/-! ## Commit Resolver (`github.py`, `GitHubClient`) -/

/-- `GitHubCommit` from `github.py`. -/
structure GitHubCommit where
  sha : String
  timestamp : Instant
deriving Repr, DecidableEq

/-- `GitHubClient.discover_commits_at_intervals` from `github.py`.

The two provider calls are abstracted as parameters: `get_branch_head` is
the (possibly failing, `GitHubAPIError`) result of
`GitHubClient.get_branch_head(branch)`, and `get_oldest_commit_in_window
start stop` is the result of
`GitHubClient._get_oldest_commit_in_window(branch, start, stop)` (which
returns `None` both when the window is empty and on a non-200 response).
Everything else follows the source line by line: with no `until` the head
is appended first and its timestamp is the reference time; `max_steps`
defaults to 1000; each target time contributes at most the one commit
found in its window; the accumulated list is reversed at the end. -/
def discover_commits_at_intervals
    (get_branch_head : Except String GitHubCommit)
    (get_oldest_commit_in_window : Instant → Instant → Option GitHubCommit)
    (step_interval : Duration) (since : Option Instant := none)
    (until_ : Option Instant := none) (max_steps : Option Nat := none) :
    Except String (List GitHubCommit) := do
  let (commits, start_time) ←
    match until_ with
    | some u => pure (([] : List GitHubCommit), u)
    | none => do
      let head ← get_branch_head
      pure ([head], head.timestamp)
  let max_steps := max_steps.getD 1000
  let target_times := calculate_target_times start_time step_interval max_steps since
  let commits := target_times.foldl (fun acc target_time =>
    let window := create_query_window target_time
    match get_oldest_commit_in_window window.start window.stop with
    | some commit => acc ++ [commit]
    | none => acc) commits
  pure commits.reverse

/-! ## Version Index (`index.py`) -/

/-- Python string comparison `a < b` on character lists: lexicographic on
code points, a strict prefix ordering first. -/
def charListLt : List Char → List Char → Bool
  | [], [] => false
  | [], _ :: _ => true
  | _ :: _, [] => false
  | a :: as, b :: bs =>
    if a.toNat < b.toNat then true
    else if b.toNat < a.toNat then false
    else charListLt as bs

/-- Python string comparison `a < b` (lexicographic on code points). -/
def pyStrLt (a b : String) : Bool :=
  charListLt a.data b.data

/-- Python string comparison `a <= b`. -/
def pyStrLe (a b : String) : Bool :=
  !pyStrLt b a

/-- A Python `Dict[str, str]` (system identifier → store path), as an
association list.  Python dicts never hold a key twice. -/
abbrev StorePathMap := List (String × String)

/-- Python `dict` equality (`old_store_paths == new_store_paths`): same key
set and the same value at every key, regardless of entry order. -/
def dictBeq (a b : StorePathMap) : Bool :=
  a.all (fun kv => b.lookup kv.1 == some kv.2) &&
    b.all (fun kv => a.lookup kv.1 == some kv.2)

/-- Python `set(old.keys()) == set(new.keys())`. -/
def sameKeys (a b : StorePathMap) : Bool :=
  a.all (fun kv => (b.lookup kv.1).isSome) &&
    b.all (fun kv => (a.lookup kv.1).isSome)

/-- `VersionEntry` from `index.py`: a single version entry in the index. -/
structure VersionEntry where
  nixpkgs_commit : String
  commit_timestamp : String
  store_paths : Option StorePathMap := none
deriving Repr, DecidableEq, Inhabited

/-- `PackageIndex` from `index.py`: the versions dict of one package. -/
structure PackageIndex where
  versions : List (String × VersionEntry) := []
deriving Repr, DecidableEq, Inhabited

/-- `Index` from `index.py`: the main index structure. -/
structure Index where
  pkgs : List (String × PackageIndex) := []
deriving Repr, DecidableEq, Inhabited

/-- Python dict assignment `m[k] = v`: replace the value at an existing
key in place, or append a new key at the end.  On the association lists
reachable from Python (keys unique) the first occurrence is the only one. -/
def setAssoc {β : Type} : List (String × β) → String → β → List (String × β)
  | [], k, v => [(k, v)]
  | p :: t, k, v => if p.1 == k then (k, v) :: t else p :: setAssoc t k v

/-- Entry lookup `index.pkgs[package].versions[version]`, as an `Option`. -/
def lookupVer (idx : Index) (package ver : String) : Option VersionEntry :=
  (idx.pkgs.lookup package).bind (fun pkgIdx => pkgIdx.versions.lookup ver)

/-- `Index._should_update_based_on_store_paths` from `index.py`, branch by
branch (the branches differing only in logging collapse to the same
value). -/
def should_update_based_on_store_paths
    (old_store_paths new_store_paths : Option StorePathMap) : Bool :=
  match old_store_paths with
  | none => true
  | some old_sp =>
    match new_store_paths with
    | none => true
    | some new_sp =>
      if dictBeq old_sp new_sp then false
      else if !sameKeys old_sp new_sp then true
      else true

/-- `Index.update_version` from `index.py`, returning the updated index
together with the boolean result.  The Python method first inserts an
empty `PackageIndex` for a missing package and then assigns through it;
the net effect on the stored structure is captured by `setAssoc` at both
levels, applied only on the branches that actually write.  The guard
`timestamp > existing_entry.commit_timestamp` is Python string comparison,
embedded as `pyStrLt existing_entry.commit_timestamp timestamp`. -/
def update_version (idx : Index) (package ver commit_sha timestamp : String)
    (store_paths : Option StorePathMap := none) : Index × Bool :=
  let pkgIdx := (idx.pkgs.lookup package).getD {}
  match pkgIdx.versions.lookup ver with
  | none =>
    (⟨setAssoc idx.pkgs package
        ⟨setAssoc pkgIdx.versions ver ⟨commit_sha, timestamp, store_paths⟩⟩⟩, true)
  | some existing_entry =>
    if pyStrLt existing_entry.commit_timestamp timestamp then
      if should_update_based_on_store_paths existing_entry.store_paths store_paths then
        (⟨setAssoc idx.pkgs package
            ⟨setAssoc pkgIdx.versions ver ⟨commit_sha, timestamp, store_paths⟩⟩⟩, true)
      else (idx, false)
    else (idx, false)

/-! ### Serialization ordering and round-trip (`Index.save` / `Index.load`)

`Index.save` sorts packages alphabetically and each package's versions by
`packaging.version.parse`, descending.  `packaging` is an external library;
on plain dotted-numeric version strings (the "parseable as semantic
versions" hypothesis of the round-trip property) it parses the string into
its numeric release components and compares them as tuples.  The persisted
entry keeps `store_paths` as an optional field: Python deletes the key from
the emitted mapping when the value is `None` and `Index.load` reads it back
with `.get`, so field absence is `none` on both sides. -/

/-- Python `s.split(sep)` for a one-character separator, character by
character: splitting the empty string yields one empty part, a trailing
separator yields a trailing empty part. -/
def splitOnCharAux (sep : Char) : List Char → List (List Char)
  | [] => [[]]
  | c :: cs =>
    match splitOnCharAux sep cs with
    | [] => [[]]
    | part :: parts =>
      if c = sep then [] :: part :: parts else (c :: part) :: parts

/-- The numeric value of a list of decimal digit characters. -/
def digitsToNat (l : List Char) : Nat :=
  l.foldl (fun n c => n * 10 + (c.toNat - 48)) 0

/-- Numeric release components of a dotted-numeric version string
(`"24.10.0"` ↦ `[24, 10, 0]`); `none` when the string is not of this
plain semantic-version shape. -/
def parseRelease (s : String) : Option (List Nat) :=
  let parts := splitOnCharAux '.' s.data
  if parts.all (fun p => !p.isEmpty && p.all (fun c => 48 ≤ c.toNat && c.toNat ≤ 57)) then
    some (parts.map digitsToNat)
  else none

/-- Python tuple comparison `a <= b` on numeric tuples: lexicographic,
a strict prefix ordering first. -/
def natListLe : List Nat → List Nat → Bool
  | [], _ => true
  | _ :: _, [] => false
  | a :: as, b :: bs => if a < b then true else if b < a then false else natListLe as bs

/-- The trailing-zero normalization `packaging.version._cmpkey` applies to
the release tuple: `itertools.dropwhile(lambda x: x == 0, reversed(release))`
reversed back, i.e. trailing zero components are dropped. -/
def stripTrailingZeros (a : List Nat) : List Nat :=
  (a.reverse.dropWhile (fun n => n == 0)).reverse

/-- Release comparison as `packaging.version.parse` induces it on plain
semantic versions (PEP 440): trailing zero components are stripped before
the numeric tuples compare, so `1.0` and `1.0.0` compare equal — each is
`releaseLe` the other. -/
def releaseLe (a b : List Nat) : Bool :=
  natListLe (stripTrailingZeros a) (stripTrailingZeros b)

/-- The sort key comparison of `sorted(pkg_index.versions.keys(),
key=version.parse, reverse=True)`: compare the parsed releases.  Keys
whose releases compare equal tie under this comparison, and the stable
sort then keeps them in dict insertion order, as Python's stable
`sorted` does. -/
def versionLe (a b : String) : Bool :=
  releaseLe ((parseRelease a).getD []) ((parseRelease b).getD [])

/-- The per-package body of `Index.save`: the package's version keys
sorted by `sorted(keys, key=version.parse, reverse=True)` (descending,
hence the flipped comparison), each keyed to its entry. -/
def savedVersions (pkg_index : PackageIndex) : List (String × VersionEntry) :=
  ((pkg_index.versions.map Prod.fst).mergeSort (fun a b => versionLe b a)).map
    (fun ver => (ver, (pkg_index.versions.lookup ver).getD default))

/-- `Index.save` from `index.py`, modelling the structured document passed
to the serializer (serialization mechanics are an external collaborator):
packages sorted alphabetically (`sorted(self.pkgs.keys())`, Python string
comparison), versions sorted by parsed version descending, each version
keyed to its entry. -/
def Index.save (idx : Index) : List (String × List (String × VersionEntry)) :=
  ((idx.pkgs.map Prod.fst).mergeSort pyStrLe).map
    (fun pkg_name =>
      (pkg_name, savedVersions ((idx.pkgs.lookup pkg_name).getD {})))

/-- `Index.load` from `index.py` on an already-parsed document: rebuild the
index structure field by field, in document order. -/
def Index.load (saved : List (String × List (String × VersionEntry))) : Index :=
  ⟨saved.map (fun p =>
    (p.1, ⟨p.2.map (fun q =>
      (q.1, ⟨q.2.nixpkgs_commit, q.2.commit_timestamp, q.2.store_paths⟩))⟩))⟩

/-! ## Validator (`validate.py`, `config.py`) -/

/-- `PackageConfig` from `config.py`. -/
structure PackageConfig where
  nixpkgs_attributes : List String := []
  tests : List String := []
deriving Repr, DecidableEq, Inhabited

/-- `Config` from `config.py` (the `eval` section plays no role in
validation and is omitted). -/
structure Config where
  branch : String := ""
  pkgs : List (String × PackageConfig) := []
deriving Repr, DecidableEq, Inhabited

/-- `ValidationFailure` from `validate.py`. -/
structure ValidationFailure where
  package : String
  version : String
  store_path : Option String := none
  system : Option String := none
  error : String
deriving Repr, DecidableEq, Inhabited

/-- `ValidationResult` from `validate.py`. -/
structure ValidationResult where
  failures : List ValidationFailure := []
  total_packages : Nat := 0
  total_versions : Nat := 0
  validated_count : Nat := 0
deriving Repr, DecidableEq, Inhabited

/-- The two `ValueError`s `validate_index` can raise: malformed target
syntax, and no (package, version) matching the target. -/
inductive ValidateError where
  | invalidTarget (target : String)
  | notFound (target : String)
deriving Repr, DecidableEq

/-- Python `target.split("@")`. -/
def splitAtSign (t : String) : List String :=
  (splitOnCharAux '@' t.data).map List.asString

/-- The target-parsing prologue of `validate_index`: `if target:` treats
`None` and the empty string as no target; a truthy target must split into
exactly two parts around `"@"` or a `ValueError` is raised.  Returns the
`(target_pkg, target_ver)` pair when a target filter is active. -/
def parseTarget : Option String → Except ValidateError (Option (String × String))
  | none => .ok none
  | some t =>
    if t = "" then .ok none
    else
      match splitAtSign t with
      | [p, v] => .ok (some (p, v))
      | _ => .error (.invalidTarget t)

/-- The `continue` filter `if target_pkg and pkg_name != target_pkg` (an
empty `target_pkg` is falsy and filters nothing). -/
def skipPkg (tgt : Option (String × String)) (pkg_name : String) : Bool :=
  match tgt with
  | some (p, _) => !(p == "") && pkg_name != p
  | none => false

/-- The `continue` filter `if target_ver and version_str != target_ver`. -/
def skipVer (tgt : Option (String × String)) (version_str : String) : Bool :=
  match tgt with
  | some (_, v) => !(v == "") && version_str != v
  | none => false

/-- Python truthiness of the optional `store_paths` dict: `None` and the
empty dict are both falsy. -/
def storePathsTruthy : Option StorePathMap → Bool
  | none => false
  | some l => !l.isEmpty

/-- The per-version body of the `validate_index` scan: the store-path
checks followed by the config-test checks, in loop order.
`store_validator sp sys` stands for `StorePathValidator.validate(sp, sys)`
and `test_validator ver tests sp` for
`TestValidator.validate(ver, tests, sp)` (both subprocess collaborators). -/
def versionFailures (store_validator : String → String → Bool)
    (test_validator : String → List String → String → Option String)
    (current_system : String) (pkg_config : PackageConfig)
    (pkg_name version_str : String) (entry : VersionEntry) :
    List ValidationFailure :=
  let store_failures :=
    if storePathsTruthy entry.store_paths then
      (entry.store_paths.getD []).filterMap (fun sp =>
        if store_validator sp.2 sp.1 then none
        else some ⟨pkg_name, version_str, some sp.2, some sp.1,
          "Store path validation failed"⟩)
    else []
  let test_failures :=
    if pkg_config.tests.isEmpty then []
    else if !storePathsTruthy entry.store_paths then
      [⟨pkg_name, version_str, none, none, "No store paths available for testing"⟩]
    else
      (entry.store_paths.getD []).filterMap (fun sp =>
        if sp.1 != current_system then none
        else
          match test_validator version_str pkg_config.tests sp.2 with
          | some err => some ⟨pkg_name, version_str, none, some sp.1, err⟩
          | none => none)
  store_failures ++ test_failures

/-- The nested scan loops of `validate_index`, as folds in loop order;
the accumulator carries the mutated `ValidationResult`. -/
def scanIndex (store_validator : String → String → Bool)
    (test_validator : String → List String → String → Option String)
    (current_system : String) (index : Index) (config : Config)
    (tgt : Option (String × String)) (init : ValidationResult) :
    ValidationResult :=
  index.pkgs.foldl (fun r p =>
    if skipPkg tgt p.1 then r
    else
      match config.pkgs.lookup p.1 with
      | none => r
      | some pkg_config =>
        p.2.versions.foldl (fun r q =>
          if skipVer tgt q.1 then r
          else
            { r with
              validated_count := r.validated_count + 1
              failures := r.failures ++
                versionFailures store_validator test_validator current_system
                  pkg_config p.1 q.1 q.2 }) r) init

/-- `validate_index` from `validate.py`.  `current_system` is the answer of
the (fatal-on-failure) `get_current_system()` probe; the two validators
are the subprocess collaborators.  The totals are computed before the
scan; after the scan, a truthy target that matched nothing raises the
"not found" `ValueError`. -/
def validate_index (store_validator : String → String → Bool)
    (test_validator : String → List String → String → Option String)
    (current_system : String) (index : Index) (config : Config)
    (target : Option String := none) :
    Except ValidateError ValidationResult :=
  match parseTarget target with
  | .error e => .error e
  | .ok tgt =>
    let init : ValidationResult :=
      { failures := []
        total_packages := index.pkgs.length
        total_versions := (index.pkgs.map (fun p => p.2.versions.length)).sum
        validated_count := 0 }
    let r := scanIndex store_validator test_validator current_system index config
      tgt init
    if tgt.isSome && r.validated_count == 0 then
      .error (.notFound (target.getD ""))
    else .ok r

/-- How many (package, version) entries the `validate_index` scan inspects
(increments `validated_count` for): the versions passing the version
filter, in packages that pass the package filter and are present in the
configuration. -/
def inspectedCount (index : Index) (config : Config)
    (tgt : Option (String × String)) : Nat :=
  (index.pkgs.map (fun q =>
    if skipPkg tgt q.1 then 0
    else
      match config.pkgs.lookup q.1 with
      | none => 0
      | some _ => (q.2.versions.filter (fun w => !skipVer tgt w.1)).length)).sum

/-- Whether any (package, version) entry of the index would be inspected
by the `validate_index` scan under the target filter `(p, v)`. -/
def anyInspected (index : Index) (config : Config) (p v : String) : Bool :=
  index.pkgs.any (fun q =>
    !skipPkg (some (p, v)) q.1 &&
      ((config.pkgs.lookup q.1).isSome &&
        q.2.versions.any (fun w => !skipVer (some (p, v)) w.1)))

/-! ## Lemmas: Time-Window Sampler -/

theorem targetTimesLoop_none (st : Instant) (i : Duration) (l : List Nat) :
    targetTimesLoop st i none l = l.map (fun k : Nat => st - i * (k : Int)) := by
  induction l with
  | nil => rfl
  | cons a t ih => simp [targetTimesLoop, ih]

theorem chain'_map_range' {S : Instant → Instant → Prop} (f : Nat → Instant)
    (h : ∀ k, S (f k) (f (k + 1))) (n s : Nat) :
    List.Chain' S ((List.range' s n).map f) := by
  induction n generalizing s with
  | zero => simp
  | succ m ih =>
    rw [List.range'_succ, List.map_cons]
    cases m with
    | zero => simp
    | succ m' =>
      rw [List.range'_succ, List.map_cons, List.chain'_cons]
      refine ⟨h s, ?_⟩
      rw [← List.map_cons, ← List.range'_succ]
      exact ih (s + 1)

theorem mem_targetTimesLoop_le (st : Instant) (i : Duration) (s : Instant) :
    ∀ (l : List Nat) (t : Instant), t ∈ targetTimesLoop st i (some s) l → s ≤ t := by
  intro l
  induction l with
  | nil => intro t ht; simp [targetTimesLoop] at ht
  | cons a r ih =>
    intro t ht
    simp only [targetTimesLoop] at ht
    by_cases hc : st - i * (a : Int) < s
    · rw [if_pos hc] at ht; simp at ht
    · rw [if_neg hc] at ht
      rcases List.mem_cons.mp ht with h | h
      · subst h; exact le_of_not_lt hc
      · exact ih t h

theorem targetTimesLoop_some_filter (st : Instant) (i : Duration) (s : Instant)
    (hpos : 0 < i) :
    ∀ (n stp : Nat), targetTimesLoop st i (some s) (List.range' stp n) =
      ((List.range' stp n).map (fun k : Nat => st - i * (k : Int))).filter
        (fun t => decide (s ≤ t)) := by
  intro n
  induction n with
  | zero => intro stp; rfl
  | succ m ih =>
    intro stp
    rw [List.range'_succ, List.map_cons]
    by_cases hc : st - i * (stp : Int) < s
    · rw [List.filter_cons_of_neg (by simpa using not_le.mpr hc)]
      have hrest : ∀ t ∈ (List.range' (stp + 1) m).map (fun k : Nat => st - i * (k : Int)),
          ¬ (decide (s ≤ t) = true) := by
        intro t ht
        rcases List.mem_map.mp ht with ⟨k, hk, rfl⟩
        rcases List.mem_range'.mp hk with ⟨j, _, rfl⟩
        have hk1 : (stp : Int) + 1 ≤ (stp + 1 + 1 * j : Nat) := by push_cast; omega
        have hmul : i * ((stp : Int) + 1) ≤ i * ((stp + 1 + 1 * j : Nat) : Int) :=
          mul_le_mul_of_nonneg_left hk1 hpos.le
        simp only [decide_eq_true_eq, not_le]
        have : i * ((stp : Int) + 1) = i * (stp : Int) + i := by ring
        linarith
      rw [List.filter_eq_nil_iff.mpr hrest]
      simp only [targetTimesLoop]
      rw [if_pos hc]
    · rw [List.filter_cons_of_pos (by simpa using le_of_not_lt hc)]
      simp only [targetTimesLoop]
      rw [if_neg hc, ih (stp + 1)]

/-- C5: for every reference time, positive interval and `max_steps`,
`calculate_target_times` with no lower bound returns exactly `max_steps`
entries in ascending order, the `k`-th-from-newest entry equalling
`reference_time - k * interval`, each consecutive pair differing by
exactly the interval; `max_steps = 0` yields the empty list. -/
theorem calculate_target_times_no_bound_spec (ref : Instant) (interval : Duration)
    (max_steps : Nat) (hpos : 0 < interval) :
    (calculate_target_times ref interval max_steps none).length = max_steps ∧
    (∀ k : Nat, 1 ≤ k → k ≤ max_steps →
      (calculate_target_times ref interval max_steps none).reverse[k - 1]? =
        some (ref - interval * (k : Int))) ∧
    List.Chain' (fun a b => a < b ∧ b - a = interval)
      (calculate_target_times ref interval max_steps none) ∧
    calculate_target_times ref interval 0 none = [] := by
  refine ⟨?_, ?_, ?_, rfl⟩
  · simp [calculate_target_times, targetTimesLoop_none]
  · intro k h1 h2
    have hk : 1 + 1 * (k - 1) = k := by omega
    rw [calculate_target_times, targetTimesLoop_none, List.reverse_reverse,
      List.getElem?_map, List.getElem?_range' _ _ (show k - 1 < max_steps by omega),
      hk]
    rfl
  · rw [calculate_target_times, targetTimesLoop_none, List.chain'_reverse]
    apply chain'_map_range'
    intro k
    constructor
    · have hmul : interval * (k : Int) < interval * ((k : Int) + 1) := by
        have := mul_lt_mul_of_pos_left (show (k : Int) < (k : Int) + 1 by omega) hpos
        simpa using this
      push_cast
      linarith
    · push_cast
      ring

/-- C5 witness: the specification instantiated at reference time 1000,
interval 10, `max_steps` 3. -/
theorem calculate_target_times_no_bound_spec_witness :
    (0 : Int) < 10 ∧
    ((calculate_target_times 1000 10 3 none).length = 3 ∧
      (∀ k : Nat, 1 ≤ k → k ≤ 3 →
        (calculate_target_times 1000 10 3 none).reverse[k - 1]? =
          some (1000 - 10 * (k : Int))) ∧
      List.Chain' (fun a b => a < b ∧ b - a = 10)
        (calculate_target_times 1000 10 3 none) ∧
      calculate_target_times 1000 10 0 none = []) :=
  ⟨by decide, calculate_target_times_no_bound_spec 1000 10 3 (by decide)⟩

/-- C6: with a lower bound, every returned entry is at or after the bound;
a bound strictly after the first computed step (`reference_time -
interval`) yields the empty list; and in general the result is the
no-bound result truncated to the entries at or after the bound. -/
theorem calculate_target_times_lower_bound_spec (ref : Instant) (interval : Duration)
    (max_steps : Nat) (lb : Instant) (hpos : 0 < interval) :
    (∀ t ∈ calculate_target_times ref interval max_steps (some lb), lb ≤ t) ∧
    (ref - interval < lb →
      calculate_target_times ref interval max_steps (some lb) = []) ∧
    calculate_target_times ref interval max_steps (some lb) =
      (calculate_target_times ref interval max_steps none).filter
        (fun t => decide (lb ≤ t)) := by
  refine ⟨?_, ?_, ?_⟩
  · intro t ht
    rw [calculate_target_times, List.mem_reverse] at ht
    exact mem_targetTimesLoop_le _ _ _ _ _ ht
  · intro hlb
    rw [calculate_target_times]
    cases max_steps with
    | zero => rfl
    | succ m =>
      rw [List.range'_succ]
      simp only [targetTimesLoop]
      rw [if_pos (by simpa using hlb)]
      rfl
  · rw [calculate_target_times, calculate_target_times,
      targetTimesLoop_some_filter ref interval lb hpos, targetTimesLoop_none,
      List.filter_reverse]

/-- C6 witness: the lower-bound specification instantiated at reference
time 1000, interval 10, `max_steps` 5, lower bound 975. -/
theorem calculate_target_times_lower_bound_spec_witness :
    (0 : Int) < 10 ∧
    ((∀ t ∈ calculate_target_times 1000 10 5 (some 975), (975 : Int) ≤ t) ∧
      ((1000 : Int) - 10 < 975 →
        calculate_target_times 1000 10 5 (some 975) = []) ∧
      calculate_target_times 1000 10 5 (some 975) =
        (calculate_target_times 1000 10 5 none).filter
          (fun t => decide ((975 : Int) ≤ t))) :=
  ⟨by decide, calculate_target_times_lower_bound_spec 1000 10 5 975 (by decide)⟩

/-! ## Commit Resolver: ordering defect

`discover_commits_at_intervals` appends the branch head first, then the
window commits for target times in ascending (oldest-first) order, and
finally reverses the whole list.  The reversal therefore emits the window
commits newest-first with the head last — not the chronological
oldest-first order the function's docstring ("Returns commits in
chronological order (oldest first)") and the specification promise.  The
unit tests miss this because their mocks return commits that do not lie in
the queried windows. -/

/-- C1 (code defect): at head timestamp 100000, interval 10000, two steps,
with a window-respecting provider returning the commit exactly at each
window's centre (the centre of `[s, u]` lies in `[s, u]`), the function
returns timestamps `[90000, 80000, 100000]` — not ascending. -/
theorem discover_commits_not_chronological :
    discover_commits_at_intervals (.ok ⟨"head", 100000⟩)
      (fun s u => some ⟨"w", (s + u) / 2⟩) 10000 none none (some 2) =
      .ok [⟨"w", 90000⟩, ⟨"w", 80000⟩, ⟨"head", 100000⟩] ∧
    ¬ List.Pairwise (fun a b : GitHubCommit => a.timestamp ≤ b.timestamp)
      [⟨"w", 90000⟩, ⟨"w", 80000⟩, ⟨"head", 100000⟩] :=
  ⟨rfl, by decide⟩

/-! ## Lemmas: association lists and string comparison -/

theorem lookup_cons_self {β : Type} (a : String) (b : β) (t : List (String × β)) :
    List.lookup a ((a, b) :: t) = some b := by
  simp [List.lookup]

theorem lookup_cons_ne {β : Type} (a c : String) (b : β) (t : List (String × β))
    (h : a ≠ c) : List.lookup a ((c, b) :: t) = List.lookup a t := by
  rw [List.lookup.eq_def]
  simp only [show (a == c) = false by simpa using h]

theorem lookup_setAssoc_self {β : Type} (m : List (String × β)) (k : String)
    (v : β) : (setAssoc m k v).lookup k = some v := by
  induction m with
  | nil => simp [setAssoc, List.lookup]
  | cons p t ih =>
    obtain ⟨a, b⟩ := p
    simp only [setAssoc]
    by_cases h : a = k
    · rw [if_pos (by simpa using h)]
      exact lookup_cons_self k v t
    · rw [if_neg (by simpa using h)]
      rw [lookup_cons_ne _ _ _ _ (Ne.symm h)]
      exact ih

theorem lookup_setAssoc_ne {β : Type} (m : List (String × β)) (k k' : String)
    (v : β) (h : k' ≠ k) : (setAssoc m k v).lookup k' = m.lookup k' := by
  induction m with
  | nil => simp only [setAssoc]; rw [lookup_cons_ne _ _ _ _ h]
  | cons p t ih =>
    obtain ⟨a, b⟩ := p
    simp only [setAssoc]
    by_cases hp : a = k
    · rw [if_pos (by simpa using hp)]
      subst hp
      rw [lookup_cons_ne _ _ _ _ h, lookup_cons_ne _ _ _ _ h]
    · rw [if_neg (by simpa using hp)]
      by_cases hk : k' = a
      · subst hk
        rw [lookup_cons_self, lookup_cons_self]
      · rw [lookup_cons_ne _ _ _ _ hk, lookup_cons_ne _ _ _ _ hk]
        exact ih

theorem lookup_mem {β : Type} {m : List (String × β)} {k : String} {v : β}
    (h : m.lookup k = some v) : (k, v) ∈ m := by
  induction m with
  | nil => simp [List.lookup] at h
  | cons p t ih =>
    obtain ⟨a, b⟩ := p
    by_cases hk : k = a
    · subst hk
      rw [lookup_cons_self] at h
      injection h with h
      subst h
      exact List.mem_cons_self _ _
    · rw [lookup_cons_ne _ _ _ _ hk] at h
      exact List.mem_cons_of_mem _ (ih h)

theorem dictBeq_eq_false_of_lookup_ne {a b : StorePathMap} {k v w : String}
    (ha : a.lookup k = some v) (hb : b.lookup k = some w) (hne : v ≠ w) :
    dictBeq a b = false := by
  have hmem : (k, v) ∈ a := lookup_mem ha
  have hall : a.all (fun kv => b.lookup kv.1 == some kv.2) = false := by
    rw [List.all_eq_false]
    exact ⟨(k, v), hmem, by simp [hb, Ne.symm hne]⟩
  rw [dictBeq, hall, Bool.false_and]

theorem charListLt_irrefl : ∀ l : List Char, charListLt l l = false
  | [] => rfl
  | c :: cs => by
    rw [charListLt]
    simp [charListLt_irrefl cs]

theorem pyStrLt_irrefl (s : String) : pyStrLt s s = false :=
  charListLt_irrefl s.data

theorem commit_timestamp_ne_of_pyStrLt {a b : String} (h : pyStrLt a b = true) :
    a ≠ b := by
  intro hEq
  subst hEq
  rw [pyStrLt_irrefl] at h
  exact Bool.false_ne_true h

/-! ## Version Index: merge/update theorems -/

/-- C2: an entry with stored build identifiers is not overwritten by a
strictly newer observation whose build-identifier mapping is exactly equal
(same systems, same identifiers): `update_version` returns `false` and the
whole index — in particular the stored provenance commit and timestamp —
is unchanged. -/
theorem update_version_skips_unchanged_store_paths
    (idx : Index) (package ver sha ts : String) (pkgIdx : PackageIndex)
    (e : VersionEntry) (old_sp new_sp : StorePathMap)
    (hpkg : idx.pkgs.lookup package = some pkgIdx)
    (hver : pkgIdx.versions.lookup ver = some e)
    (hold : e.store_paths = some old_sp)
    (heq : dictBeq old_sp new_sp = true)
    (hts : pyStrLt e.commit_timestamp ts = true) :
    update_version idx package ver sha ts (some new_sp) = (idx, false) := by
  simp [update_version, hpkg, hver, hts, should_update_based_on_store_paths,
    hold, heq]

/-- C2 witness: a concrete index holding `pkg@1.0` with build identifiers,
updated at a strictly newer timestamp with the identical mapping. -/
theorem update_version_skips_unchanged_store_paths_witness :
    (Index.pkgs ⟨[("pkg", ⟨[("1.0", ⟨"sha1", "2025-01-01", some [("x", "p1")]⟩)]⟩)]⟩).lookup "pkg" =
      some ⟨[("1.0", ⟨"sha1", "2025-01-01", some [("x", "p1")]⟩)]⟩ ∧
    dictBeq [("x", "p1")] [("x", "p1")] = true ∧
    pyStrLt "2025-01-01" "2025-02-01" = true ∧
    update_version ⟨[("pkg", ⟨[("1.0", ⟨"sha1", "2025-01-01", some [("x", "p1")]⟩)]⟩)]⟩
        "pkg" "1.0" "sha2" "2025-02-01" (some [("x", "p1")]) =
      (⟨[("pkg", ⟨[("1.0", ⟨"sha1", "2025-01-01", some [("x", "p1")]⟩)]⟩)]⟩, false) :=
  ⟨by decide, by decide, by decide,
    update_version_skips_unchanged_store_paths
      ⟨[("pkg", ⟨[("1.0", ⟨"sha1", "2025-01-01", some [("x", "p1")]⟩)]⟩)]⟩
      "pkg" "1.0" "sha2" "2025-02-01"
      ⟨[("1.0", ⟨"sha1", "2025-01-01", some [("x", "p1")]⟩)]⟩
      ⟨"sha1", "2025-01-01", some [("x", "p1")]⟩
      [("x", "p1")] [("x", "p1")] (by decide) (by decide) (by decide)
      (by decide) (by decide)⟩

/-- C3: an observation whose (string-compared) timestamp is at or before
the stored entry's timestamp is a no-op: `update_version` returns `false`
and the index is unchanged, for every commit sha and build-identifier
mapping. -/
theorem update_version_noop_older_timestamp
    (idx : Index) (package ver sha ts : String) (pkgIdx : PackageIndex)
    (e : VersionEntry) (sp : Option StorePathMap)
    (hpkg : idx.pkgs.lookup package = some pkgIdx)
    (hver : pkgIdx.versions.lookup ver = some e)
    (hts : pyStrLe ts e.commit_timestamp = true) :
    update_version idx package ver sha ts sp = (idx, false) := by
  have h : pyStrLt e.commit_timestamp ts = false := by
    rw [pyStrLe] at hts
    cases hb : pyStrLt e.commit_timestamp ts
    · rfl
    · rw [hb] at hts; simp at hts
  simp [update_version, hpkg, hver, h]

/-- C3 witness: updating `pkg@1.0` at an older timestamp with different
sha and build identifiers is a no-op. -/
theorem update_version_noop_older_timestamp_witness :
    (Index.pkgs ⟨[("pkg", ⟨[("1.0", ⟨"sha1", "2025-03-01", some [("x", "p1")]⟩)]⟩)]⟩).lookup "pkg" =
      some ⟨[("1.0", ⟨"sha1", "2025-03-01", some [("x", "p1")]⟩)]⟩ ∧
    pyStrLe "2025-02-01" "2025-03-01" = true ∧
    update_version ⟨[("pkg", ⟨[("1.0", ⟨"sha1", "2025-03-01", some [("x", "p1")]⟩)]⟩)]⟩
        "pkg" "1.0" "sha2" "2025-02-01" (some [("x", "p2"), ("y", "q")]) =
      (⟨[("pkg", ⟨[("1.0", ⟨"sha1", "2025-03-01", some [("x", "p1")]⟩)]⟩)]⟩, false) :=
  ⟨by decide, by decide,
    update_version_noop_older_timestamp
      ⟨[("pkg", ⟨[("1.0", ⟨"sha1", "2025-03-01", some [("x", "p1")]⟩)]⟩)]⟩
      "pkg" "1.0" "sha2" "2025-02-01"
      ⟨[("1.0", ⟨"sha1", "2025-03-01", some [("x", "p1")]⟩)]⟩
      ⟨"sha1", "2025-03-01", some [("x", "p1")]⟩
      (some [("x", "p2"), ("y", "q")]) (by decide) (by decide) (by decide)⟩

/-- C4: a strictly newer observation over the same system key-set but with
at least one differing build identifier overwrites: `update_version`
returns `true` and the stored entry is replaced wholesale by the new
commit sha, timestamp and build-identifier mapping. -/
theorem update_version_overwrites_changed_store_paths
    (idx : Index) (package ver sha ts : String) (pkgIdx : PackageIndex)
    (e : VersionEntry) (old_sp new_sp : StorePathMap) (k v w : String)
    (hpkg : idx.pkgs.lookup package = some pkgIdx)
    (hver : pkgIdx.versions.lookup ver = some e)
    (hold : e.store_paths = some old_sp)
    (_hkeys : sameKeys old_sp new_sp = true)
    (hts : pyStrLt e.commit_timestamp ts = true)
    (hv : old_sp.lookup k = some v) (hw : new_sp.lookup k = some w)
    (hne : v ≠ w) :
    (update_version idx package ver sha ts (some new_sp)).2 = true ∧
    lookupVer (update_version idx package ver sha ts (some new_sp)).1 package ver =
      some ⟨sha, ts, some new_sp⟩ := by
  have hbeq := dictBeq_eq_false_of_lookup_ne hv hw hne
  have hup : should_update_based_on_store_paths e.store_paths (some new_sp) = true := by
    rw [hold, should_update_based_on_store_paths]
    simp [hbeq]
  constructor
  · simp [update_version, hpkg, hver, hts, hup]
  · simp [update_version, hpkg, hver, hts, hup, lookupVer, lookup_setAssoc_self]

/-- C4 witness: updating `pkg@1.0` at a strictly newer timestamp with the
same system set but a different identifier replaces the entry. -/
theorem update_version_overwrites_changed_store_paths_witness :
    sameKeys [("x", "p1")] [("x", "p2")] = true ∧
    pyStrLt "2025-01-01" "2025-02-01" = true ∧
    ("p1" : String) ≠ "p2" ∧
    ((update_version ⟨[("pkg", ⟨[("1.0", ⟨"sha1", "2025-01-01", some [("x", "p1")]⟩)]⟩)]⟩
        "pkg" "1.0" "sha2" "2025-02-01" (some [("x", "p2")])).2 = true ∧
      lookupVer (update_version ⟨[("pkg", ⟨[("1.0", ⟨"sha1", "2025-01-01", some [("x", "p1")]⟩)]⟩)]⟩
          "pkg" "1.0" "sha2" "2025-02-01" (some [("x", "p2")])).1 "pkg" "1.0" =
        some ⟨"sha2", "2025-02-01", some [("x", "p2")]⟩) :=
  ⟨by decide, by decide, by decide,
    update_version_overwrites_changed_store_paths
      ⟨[("pkg", ⟨[("1.0", ⟨"sha1", "2025-01-01", some [("x", "p1")]⟩)]⟩)]⟩
      "pkg" "1.0" "sha2" "2025-02-01"
      ⟨[("1.0", ⟨"sha1", "2025-01-01", some [("x", "p1")]⟩)]⟩
      ⟨"sha1", "2025-01-01", some [("x", "p1")]⟩
      [("x", "p1")] [("x", "p2")] "x" "p1" "p2" (by decide) (by decide)
      (by decide) (by decide) (by decide) (by decide) (by decide) (by decide)⟩

/-- C10: `update_version` returns `false` exactly when it leaves the index
entirely unchanged; when it returns `true` the named (package, version)
entry now holds the new commit, timestamp and build identifiers, every
other package and every other version of the package are unchanged, and a
previously missing package now holds exactly the one new version. -/
theorem update_version_frame (idx : Index) (package ver sha ts : String)
    (sp : Option StorePathMap) :
    ((update_version idx package ver sha ts sp).2 = false ↔
      (update_version idx package ver sha ts sp).1 = idx) ∧
    ((update_version idx package ver sha ts sp).2 = true →
      lookupVer (update_version idx package ver sha ts sp).1 package ver =
        some ⟨sha, ts, sp⟩ ∧
      (∀ p, p ≠ package →
        ((update_version idx package ver sha ts sp).1.pkgs.lookup p =
          idx.pkgs.lookup p)) ∧
      (∀ v, v ≠ ver →
        lookupVer (update_version idx package ver sha ts sp).1 package v =
          lookupVer idx package v) ∧
      (idx.pkgs.lookup package = none →
        ((update_version idx package ver sha ts sp).1.pkgs.lookup package =
          some ⟨[(ver, ⟨sha, ts, sp⟩)]⟩))) := by
  rcases hP : idx.pkgs.lookup package with _ | pkgIdx
  · -- the package is not in the index: the version cannot be either, so
    -- the call inserts and returns true
    have hres : update_version idx package ver sha ts sp =
        (⟨setAssoc idx.pkgs package ⟨[(ver, ⟨sha, ts, sp⟩)]⟩⟩, true) := by
      simp [update_version, hP, List.lookup, setAssoc]
    rw [hres]
    constructor
    · refine iff_of_false (by simp) ?_
      intro hEq
      have hc := congrArg (fun i : Index => i.pkgs.lookup package) hEq
      simp only [lookup_setAssoc_self, hP] at hc
      exact Option.some_ne_none _ hc
    · intro _
      refine ⟨?_, ?_, ?_, ?_⟩
      · simp [lookupVer, lookup_setAssoc_self, lookup_cons_self]
      · intro p hp
        exact lookup_setAssoc_ne _ _ _ _ hp
      · intro v hv
        simp [lookupVer, lookup_setAssoc_self, hP, List.lookup,
          show (v == ver) = false by simpa using hv]
      · intro _
        simp [lookup_setAssoc_self]
  · rcases hV : pkgIdx.versions.lookup ver with _ | e
    · -- the package exists but the version does not: insert, return true
      have hres : update_version idx package ver sha ts sp =
          (⟨setAssoc idx.pkgs package
            ⟨setAssoc pkgIdx.versions ver ⟨sha, ts, sp⟩⟩⟩, true) := by
        simp [update_version, hP, hV]
      rw [hres]
      constructor
      · refine iff_of_false (by simp) ?_
        intro hEq
        have hc := congrArg (fun i : Index => lookupVer i package ver) hEq
        simp [lookupVer, lookup_setAssoc_self, hP, hV] at hc
      · intro _
        refine ⟨?_, ?_, ?_, ?_⟩
        · simp [lookupVer, lookup_setAssoc_self]
        · intro p hp
          exact lookup_setAssoc_ne _ _ _ _ hp
        · intro v hv
          simp [lookupVer, lookup_setAssoc_self, hP,
            lookup_setAssoc_ne _ _ _ _ hv]
        · intro hnone
          exact absurd hnone (by simp)
    · cases hts : pyStrLt e.commit_timestamp ts with
      | false =>
        have hres : update_version idx package ver sha ts sp = (idx, false) := by
          simp [update_version, hP, hV, hts]
        rw [hres]
        exact ⟨by simp, by intro h; exact absurd h (by simp)⟩
      | true =>
        cases hup : should_update_based_on_store_paths e.store_paths sp with
        | false =>
          have hres : update_version idx package ver sha ts sp = (idx, false) := by
            simp [update_version, hP, hV, hts, hup]
          rw [hres]
          exact ⟨by simp, by intro h; exact absurd h (by simp)⟩
        | true =>
          have hres : update_version idx package ver sha ts sp =
              (⟨setAssoc idx.pkgs package
                ⟨setAssoc pkgIdx.versions ver ⟨sha, ts, sp⟩⟩⟩, true) := by
            simp [update_version, hP, hV, hts, hup]
          rw [hres]
          constructor
          · refine iff_of_false (by simp) ?_
            intro hEq
            have hc := congrArg (fun i : Index => lookupVer i package ver) hEq
            simp [lookupVer, lookup_setAssoc_self, hP, hV] at hc
            have hts' : ts = e.commit_timestamp := congrArg
              VersionEntry.commit_timestamp hc
            exact commit_timestamp_ne_of_pyStrLt hts hts'.symm
          · intro _
            refine ⟨?_, ?_, ?_, ?_⟩
            · simp [lookupVer, lookup_setAssoc_self]
            · intro p hp
              exact lookup_setAssoc_ne _ _ _ _ hp
            · intro v hv
              simp [lookupVer, lookup_setAssoc_self, hP,
                lookup_setAssoc_ne _ _ _ _ hv]
            · intro hnone
              exact absurd hnone (by simp)

/-- C10 witness: inserting into the empty index returns true and creates
exactly the one package with the one entry. -/
theorem update_version_frame_witness :
    (update_version ⟨[]⟩ "pkg" "1.0" "sha1" "t1" none).2 = true ∧
    lookupVer (update_version ⟨[]⟩ "pkg" "1.0" "sha1" "t1" none).1 "pkg" "1.0" =
      some ⟨"sha1", "t1", none⟩ ∧
    ((update_version ⟨[]⟩ "pkg" "1.0" "sha1" "t1" none).1.pkgs.lookup "pkg" =
      some ⟨[("1.0", ⟨"sha1", "t1", none⟩)]⟩) :=
  ⟨by decide,
    ((update_version_frame ⟨[]⟩ "pkg" "1.0" "sha1" "t1" none).2 (by decide)).1,
    ((update_version_frame ⟨[]⟩ "pkg" "1.0" "sha1" "t1" none).2 (by decide)).2.2.2
      (by decide)⟩

/-! ## Lemmas: validator scan counting -/

theorem scan_inner_count (sv : String → String → Bool)
    (tv : String → List String → String → Option String) (cs : String)
    (pc : PackageConfig) (pname : String) (tgt : Option (String × String)) :
    ∀ (vs : List (String × VersionEntry)) (r : ValidationResult),
      (vs.foldl (fun r q =>
        if skipVer tgt q.1 then r
        else
          { r with
            validated_count := r.validated_count + 1
            failures := r.failures ++
              versionFailures sv tv cs pc pname q.1 q.2 }) r).validated_count =
      r.validated_count + (vs.filter (fun w => !skipVer tgt w.1)).length := by
  intro vs
  induction vs with
  | nil => intro r; simp
  | cons q t ih =>
    intro r
    rw [List.foldl_cons]
    cases h : skipVer tgt q.1 with
    | true =>
      rw [if_pos rfl]
      rw [ih r, List.filter_cons_of_neg (by simp [h])]
    | false =>
      rw [if_neg (by simp)]
      rw [ih, List.filter_cons_of_pos (by simp [h])]
      simp only [List.length_cons]
      omega

theorem scanIndex_count (sv : String → String → Bool)
    (tv : String → List String → String → Option String) (cs : String)
    (cfg : Config) (tgt : Option (String × String)) :
    ∀ (pkgs : List (String × PackageIndex)) (init : ValidationResult),
      (scanIndex sv tv cs ⟨pkgs⟩ cfg tgt init).validated_count =
        init.validated_count + inspectedCount ⟨pkgs⟩ cfg tgt := by
  intro pkgs
  induction pkgs with
  | nil => intro init; simp [scanIndex, inspectedCount]
  | cons q t ih =>
    intro init
    simp only [scanIndex] at ih ⊢
    rw [List.foldl_cons]
    cases hskip : skipPkg tgt q.1 with
    | true =>
      rw [if_pos rfl]
      rw [ih init]
      simp [inspectedCount, hskip]
    | false =>
      rw [if_neg (by simp)]
      rcases hcfg : cfg.pkgs.lookup q.1 with _ | pc
      · dsimp only
        rw [ih init]
        simp [inspectedCount, hskip, hcfg]
      · dsimp only
        rw [ih]
        rw [scan_inner_count]
        simp [inspectedCount, hskip, hcfg]
        omega

theorem inspectedCount_zero_of_not_anyInspected (idx : Index) (cfg : Config)
    (p v : String) (h : anyInspected idx cfg p v = false) :
    inspectedCount idx cfg (some (p, v)) = 0 := by
  rw [anyInspected, List.any_eq_false] at h
  rw [inspectedCount]
  apply List.sum_eq_zero
  intro n hn
  rcases List.mem_map.mp hn with ⟨q, hq, rfl⟩
  have hb := h q hq
  cases hskip : skipPkg (some (p, v)) q.1 with
  | true => rw [if_pos rfl]
  | false =>
    rw [if_neg (by simp)]
    simp only [hskip, Bool.not_false, Bool.true_and] at hb
    rcases hcfg : cfg.pkgs.lookup q.1 with _ | pc
    · rfl
    · dsimp only
      simp only [hcfg, Option.isSome_some, Bool.true_and] at hb
      rw [List.filter_eq_nil_iff.mpr ?_]
      · rfl
      · intro w hw
        have hb2 : (q.2.versions.any fun w => !skipVer (some (p, v)) w.1) = false := by
          simpa using hb
        have hwb := List.any_eq_false.mp hb2 w hw
        simpa using hwb

theorem inspectedCount_zero_of_no_name (cfg : Config) (p v : String)
    (hp : p ≠ "") :
    ∀ (t : List (String × PackageIndex)), (∀ q ∈ t, q.1 ≠ p) →
      inspectedCount ⟨t⟩ cfg (some (p, v)) = 0 := by
  intro t
  induction t with
  | nil => intro _; simp [inspectedCount]
  | cons q r ih =>
    intro h
    have hq : q.1 ≠ p := h q (List.mem_cons_self _ _)
    have hskip : skipPkg (some (p, v)) q.1 = true := by
      simp [skipPkg, hp, hq]
    simp only [inspectedCount, List.map_cons, List.sum_cons] at ih ⊢
    rw [if_pos hskip]
    rw [ih (fun x hx => h x (List.mem_cons_of_mem _ hx))]

theorem inspectedCount_single (cfg : Config) (p : String) (pkgIdx : PackageIndex)
    (hp : p ≠ "") (hcfg : (cfg.pkgs.lookup p).isSome = true) :
    ∀ (pkgs : List (String × PackageIndex)),
      (pkgs.map Prod.fst).Nodup → pkgs.lookup p = some pkgIdx →
      inspectedCount ⟨pkgs⟩ cfg (some (p, "")) = pkgIdx.versions.length := by
  intro pkgs
  induction pkgs with
  | nil => intro _ hlook; simp [List.lookup] at hlook
  | cons q t ih =>
    intro hwf hlook
    obtain ⟨a, pi⟩ := q
    simp only [List.map_cons, List.nodup_cons] at hwf
    by_cases ha : p = a
    · subst ha
      rw [lookup_cons_self] at hlook
      injection hlook with hlook
      rw [← hlook]
      simp only [inspectedCount, List.map_cons, List.sum_cons]
      have hskip : skipPkg (some (p, "")) p = false := by simp [skipPkg]
      rw [if_neg (by simp [hskip])]
      rcases hc : cfg.pkgs.lookup p with _ | pc
      · rw [hc] at hcfg; simp at hcfg
      · dsimp only
        have hfilter : pi.versions.filter
            (fun w => !skipVer (some (p, "")) w.1) = pi.versions := by
          apply List.filter_eq_self.mpr
          intro w _
          simp [skipVer]
        rw [hfilter]
        have hzero : inspectedCount ⟨t⟩ cfg (some (p, "")) = 0 := by
          apply inspectedCount_zero_of_no_name cfg p "" hp
          intro x hx
          intro hxe
          exact hwf.1 (hxe ▸ (List.mem_map_of_mem Prod.fst hx))
        simp only [inspectedCount] at hzero
        rw [hzero]
        omega
    · rw [lookup_cons_ne _ _ _ _ ha] at hlook
      simp only [inspectedCount, List.map_cons, List.sum_cons] at ih ⊢
      have hskip : skipPkg (some (p, "")) a = true := by
        simp [skipPkg, hp, Ne.symm ha]
      rw [if_pos hskip]
      rw [ih hwf.2 hlook]
      omega

/-! ## Validator theorems -/

/-- C8 counterexample: the empty string does not split into two parts
around `"@"`, yet `validate_index` raises no error for it — Python's
`if target:` treats the empty target like no target, so the format check
never runs and the scan-plus-not-found check is skipped as well. -/
theorem validate_index_empty_target_no_error :
    (splitAtSign "").length ≠ 2 ∧
    validate_index (fun _ _ => true) (fun _ _ _ => none) "x86_64-linux"
      ⟨[]⟩ {} (some "") =
      .ok { failures := [], total_packages := 0, total_versions := 0,
            validated_count := 0 } :=
  ⟨by decide, rfl⟩

/-- C8 (amended: the target must be nonempty; the empty-string target is
treated as no target): a nonempty target that does not split into exactly
two parts around `"@"` makes `validate_index` fail with the malformed-
target error for every index and configuration, before any scan result
can matter; a target that splits as `[p, v]` but under whose filter no
(package, version) entry of the index is inspected makes it fail with the
distinct "not found" error after the scan counts zero matches — in
particular when the package exists but the version does not. -/
theorem validate_index_target_errors :
    (∀ (sv : String → String → Bool)
        (tv : String → List String → String → Option String) (cs : String)
        (idx : Index) (cfg : Config) (t : String),
      t ≠ "" → (splitAtSign t).length ≠ 2 →
      validate_index sv tv cs idx cfg (some t) = .error (.invalidTarget t)) ∧
    (∀ (sv : String → String → Bool)
        (tv : String → List String → String → Option String) (cs : String)
        (idx : Index) (cfg : Config) (t p v : String),
      splitAtSign t = [p, v] →
      anyInspected idx cfg p v = false →
      validate_index sv tv cs idx cfg (some t) = .error (.notFound t)) := by
  constructor
  · intro sv tv cs idx cfg t ht hlen
    have hpt : parseTarget (some t) = .error (.invalidTarget t) := by
      simp only [parseTarget]
      rw [if_neg ht]
      rcases hsp : splitAtSign t with _ | ⟨a, _ | ⟨b, _ | ⟨c, r⟩⟩⟩
      · rfl
      · rfl
      · exact absurd (by rw [hsp]; rfl) hlen
      · rfl
    simp only [validate_index, hpt]
  · intro sv tv cs idx cfg t p v hsp hany
    obtain ⟨pkgs⟩ := idx
    have ht : t ≠ "" := by
      intro h
      subst h
      rw [show splitAtSign "" = [""] from rfl] at hsp
      simp at hsp
    have hpt : parseTarget (some t) = .ok (some (p, v)) := by
      simp only [parseTarget]
      rw [if_neg ht, hsp]
    have h0 : ∀ init : ValidationResult,
        (scanIndex sv tv cs ⟨pkgs⟩ cfg (some (p, v)) init).validated_count =
          init.validated_count := by
      intro i
      rw [scanIndex_count, inspectedCount_zero_of_not_anyInspected _ _ _ _ hany]
      omega
    simp only [validate_index, hpt, h0]
    simp

/-- C8 witness: the malformed target `"nope"` is rejected; the well-formed
target `"pkg@2.0"` on an index holding only `pkg@1.0` (with `pkg`
configured) yields the "not found" error. -/
theorem validate_index_target_errors_witness :
    validate_index (fun _ _ => true) (fun _ _ _ => none) "x"
      ⟨[]⟩ {} (some "nope") = .error (.invalidTarget "nope") ∧
    validate_index (fun _ _ => true) (fun _ _ _ => none) "x"
      ⟨[("pkg", ⟨[("1.0", ⟨"s", "t", none⟩)]⟩)]⟩
      ⟨"", [("pkg", ⟨[], []⟩)]⟩ (some "pkg@2.0") =
      .error (.notFound "pkg@2.0") :=
  ⟨validate_index_target_errors.1 (fun _ _ => true) (fun _ _ _ => none) "x"
      ⟨[]⟩ {} "nope" (by decide) (by decide),
    validate_index_target_errors.2 (fun _ _ => true) (fun _ _ _ => none) "x"
      ⟨[("pkg", ⟨[("1.0", ⟨"s", "t", none⟩)]⟩)]⟩
      ⟨"", [("pkg", ⟨[], []⟩)]⟩ "pkg@2.0" "pkg" "2.0" (by decide) (by decide)⟩

/-- C9: a target of the form `pkg@` (empty version part) passes the format
check, and because the empty version string is falsy the version filter is
inactive: when the package is in the index with at least one version and
is configured, `validate_index` returns a result (no malformed-target and
no not-found error) whose `validated_count` is the number of versions of
that package — every one of them was inspected. -/
theorem validate_index_empty_version_target
    (sv : String → String → Bool)
    (tv : String → List String → String → Option String) (cs : String)
    (idx : Index) (cfg : Config) (t p : String) (pkgIdx : PackageIndex)
    (hsplit : splitAtSign t = [p, ""])
    (hp : p ≠ "")
    (hwf : (idx.pkgs.map Prod.fst).Nodup)
    (hpkg : idx.pkgs.lookup p = some pkgIdx)
    (hcfg : (cfg.pkgs.lookup p).isSome = true)
    (hne : pkgIdx.versions ≠ []) :
    ∃ r, validate_index sv tv cs idx cfg (some t) = .ok r ∧
      r.validated_count = pkgIdx.versions.length := by
  obtain ⟨pkgs⟩ := idx
  have ht : t ≠ "" := by
    intro h
    subst h
    rw [show splitAtSign "" = [""] from rfl] at hsplit
    simp at hsplit
  have hpt : parseTarget (some t) = .ok (some (p, "")) := by
    simp only [parseTarget]
    rw [if_neg ht, hsplit]
  have h0 : ∀ init : ValidationResult,
      (scanIndex sv tv cs ⟨pkgs⟩ cfg (some (p, "")) init).validated_count =
        init.validated_count + pkgIdx.versions.length := by
    intro i
    rw [scanIndex_count, inspectedCount_single cfg p pkgIdx hp hcfg pkgs hwf hpkg]
  have hlen : pkgIdx.versions.length ≠ 0 := by
    intro h
    exact hne (List.length_eq_zero.mp h)
  have key : validate_index sv tv cs ⟨pkgs⟩ cfg (some t) =
      .ok (scanIndex sv tv cs ⟨pkgs⟩ cfg (some (p, ""))
        { failures := [], total_packages := pkgs.length,
          total_versions := (pkgs.map (fun q => q.2.versions.length)).sum,
          validated_count := 0 }) := by
    simp only [validate_index, hpt]
    rw [if_neg]
    simp only [Option.isSome_some, Bool.true_and]
    rw [h0]
    simp [hlen]
  refine ⟨_, key, ?_⟩
  rw [h0]
  simp

/-- C9 witness: target `"pkg@"` on an index holding `pkg` at versions 1.0
and 1.1 (with `pkg` configured) inspects both versions and raises nothing. -/
theorem validate_index_empty_version_target_witness :
    splitAtSign "pkg@" = ["pkg", ""] ∧
    (∃ r, validate_index (fun _ _ => true) (fun _ _ _ => none) "x"
        ⟨[("pkg", ⟨[("1.0", ⟨"s", "t1", none⟩), ("1.1", ⟨"s", "t2", none⟩)]⟩)]⟩
        ⟨"", [("pkg", ⟨[], []⟩)]⟩ (some "pkg@") = .ok r ∧
      r.validated_count =
        (PackageIndex.versions ⟨[("1.0", ⟨"s", "t1", none⟩),
          ("1.1", ⟨"s", "t2", none⟩)]⟩).length) :=
  ⟨by decide,
    validate_index_empty_version_target (fun _ _ => true) (fun _ _ _ => none) "x"
      ⟨[("pkg", ⟨[("1.0", ⟨"s", "t1", none⟩), ("1.1", ⟨"s", "t2", none⟩)]⟩)]⟩
      ⟨"", [("pkg", ⟨[], []⟩)]⟩ "pkg@" "pkg"
      ⟨[("1.0", ⟨"s", "t1", none⟩), ("1.1", ⟨"s", "t2", none⟩)]⟩
      (by decide) (by decide) (by decide) (by decide) (by decide) (by decide)⟩

/-! ## Lemmas: the two sort-key orders of `Index.save` -/

theorem charListLt_asymm : ∀ a b : List Char,
    charListLt a b = true → charListLt b a = false
  | [], [] => by simp [charListLt]
  | [], _ :: _ => fun _ => rfl
  | _ :: _, [] => by simp [charListLt]
  | a0 :: as, b0 :: bs => by
    intro h
    rw [charListLt] at h ⊢
    by_cases h1 : a0.toNat < b0.toNat
    · rw [if_neg (by omega), if_pos h1]
    · rw [if_neg h1] at h
      by_cases h2 : b0.toNat < a0.toNat
      · rw [if_pos h2] at h
        exact absurd h (by simp)
      · rw [if_neg h2] at h
        rw [if_neg h2, if_neg h1]
        exact charListLt_asymm as bs h

theorem charListLt_le_trans : ∀ a b c : List Char,
    charListLt b a = false → charListLt c b = false → charListLt c a = false
  | [], _, [] => fun _ _ => rfl
  | [], _, _ :: _ => fun _ _ => rfl
  | _ :: _, [], _ => by intro h1 _; simp [charListLt] at h1
  | _ :: _, _ :: _, [] => by intro _ h2; simp [charListLt] at h2
  | a0 :: as, b0 :: bs, c0 :: cs => by
    intro h1 h2
    rw [charListLt] at h1 h2 ⊢
    by_cases h_ba : b0.toNat < a0.toNat
    · rw [if_pos h_ba] at h1
      exact absurd h1 (by simp)
    · rw [if_neg h_ba] at h1
      by_cases h_cb : c0.toNat < b0.toNat
      · rw [if_pos h_cb] at h2
        exact absurd h2 (by simp)
      · rw [if_neg h_cb] at h2
        by_cases h_ca : c0.toNat < a0.toNat
        · omega
        · rw [if_neg h_ca]
          by_cases h_ac : a0.toNat < c0.toNat
          · rw [if_pos h_ac]
          · rw [if_neg h_ac]
            have hab : ¬ a0.toNat < b0.toNat := by omega
            have hbc : ¬ b0.toNat < c0.toNat := by omega
            rw [if_neg hab] at h1
            rw [if_neg hbc] at h2
            exact charListLt_le_trans as bs cs h1 h2

theorem pyStrLe_trans (a b c : String) (h1 : pyStrLe a b = true)
    (h2 : pyStrLe b c = true) : pyStrLe a c = true := by
  simp only [pyStrLe, pyStrLt] at h1 h2 ⊢
  have h1' : charListLt b.data a.data = false := by
    cases hx : charListLt b.data a.data
    · rfl
    · rw [hx] at h1; simp at h1
  have h2' : charListLt c.data b.data = false := by
    cases hx : charListLt c.data b.data
    · rfl
    · rw [hx] at h2; simp at h2
  rw [charListLt_le_trans a.data b.data c.data h1' h2']
  rfl

theorem pyStrLe_total (a b : String) : (pyStrLe a b || pyStrLe b a) = true := by
  simp only [pyStrLe, pyStrLt]
  cases hx : charListLt b.data a.data
  · simp
  · rw [charListLt_asymm _ _ hx]
    simp

theorem natListLe_head_le {a0 b0 : Nat} {as bs : List Nat}
    (h : natListLe (a0 :: as) (b0 :: bs) = true) : a0 ≤ b0 := by
  rw [natListLe] at h
  by_cases h1 : a0 < b0
  · omega
  · rw [if_neg h1] at h
    by_cases h2 : b0 < a0
    · rw [if_pos h2] at h
      exact absurd h (by simp)
    · omega

theorem natListLe_trans : ∀ a b c : List Nat,
    natListLe a b = true → natListLe b c = true → natListLe a c = true
  | [], _, _ => by intro _ _; rfl
  | _ :: _, [], _ => by intro h1 _; simp [natListLe] at h1
  | a0 :: as, b0 :: bs, [] => by intro _ h2; simp [natListLe] at h2
  | a0 :: as, b0 :: bs, c0 :: cs => by
    intro h1 h2
    have hab : a0 ≤ b0 := natListLe_head_le h1
    have hbc : b0 ≤ c0 := natListLe_head_le h2
    rw [natListLe]
    by_cases h_ac : a0 < c0
    · rw [if_pos h_ac]
    · rw [if_neg h_ac, if_neg (by omega)]
      rw [natListLe, if_neg (by omega), if_neg (by omega)] at h1
      rw [natListLe, if_neg (by omega), if_neg (by omega)] at h2
      exact natListLe_trans as bs cs h1 h2

theorem natListLe_total : ∀ a b : List Nat, (natListLe a b || natListLe b a) = true
  | [], _ => by simp [natListLe]
  | _ :: _, [] => by simp [natListLe]
  | a0 :: as, b0 :: bs => by
    rw [natListLe, natListLe]
    by_cases h1 : a0 < b0
    · simp [h1]
    · by_cases h2 : b0 < a0
      · simp [h1, h2]
      · simpa [h1, h2] using natListLe_total as bs

theorem releaseLe_trans (a b c : List Nat) (h1 : releaseLe a b = true)
    (h2 : releaseLe b c = true) : releaseLe a c = true := by
  rw [releaseLe] at h1 h2 ⊢
  exact natListLe_trans _ _ _ h1 h2

theorem releaseLe_total (a b : List Nat) :
    (releaseLe a b || releaseLe b a) = true := by
  rw [releaseLe, releaseLe]
  exact natListLe_total _ _

theorem versionGe_trans (a b c : String) (h1 : versionLe b a = true)
    (h2 : versionLe c b = true) : versionLe c a = true := by
  rw [versionLe] at h1 h2 ⊢
  exact releaseLe_trans _ _ _ h2 h1

theorem versionGe_total (a b : String) : (versionLe b a || versionLe a b) = true := by
  rw [versionLe, versionLe]
  exact releaseLe_total _ _

theorem lookup_keyed_map {β : Type} (f : String → β) :
    ∀ (ks : List String) (k : String),
      (ks.map (fun x => (x, f x))).lookup k =
        if k ∈ ks then some (f k) else none := by
  intro ks
  induction ks with
  | nil => intro k; simp [List.lookup]
  | cons x t ih =>
    intro k
    rw [List.map_cons]
    by_cases hk : k = x
    · subst hk
      rw [lookup_cons_self]
      simp
    · rw [lookup_cons_ne _ _ _ _ hk, ih]
      by_cases hm : k ∈ t
      · simp [hm, hk]
      · simp [hm, hk]

theorem lookup_eq_none_iff {β : Type} (m : List (String × β)) (k : String) :
    m.lookup k = none ↔ k ∉ m.map Prod.fst := by
  induction m with
  | nil => simp [List.lookup]
  | cons p t ih =>
    obtain ⟨a, b⟩ := p
    by_cases hk : k = a
    · subst hk
      rw [lookup_cons_self]
      simp
    · rw [lookup_cons_ne _ _ _ _ hk]
      simp [ih, hk]

/-- C7: saving an index whose version strings parse as plain semantic
versions and loading the result back reproduces exactly the same
(package, version) → entry data (an absent build-identifier mapping
included, which round-trips as absent); in the saved form the packages
are ordered alphabetically and each package's version keys descend by
semantic-version comparison of their parsed releases. -/
theorem save_load_round_trip (idx : Index)
    (hparse : ∀ q ∈ idx.pkgs, ∀ w ∈ q.2.versions,
      (parseRelease w.1).isSome = true) :
    (∀ p v, lookupVer (Index.load (Index.save idx)) p v = lookupVer idx p v) ∧
    List.Pairwise (fun a b => pyStrLe a b = true)
      ((Index.save idx).map Prod.fst) ∧
    (∀ q ∈ Index.save idx, List.Pairwise
      (fun a b => ∃ ra rb, parseRelease a = some ra ∧ parseRelease b = some rb ∧
        releaseLe rb ra = true) (q.2.map Prod.fst)) := by
  have hform : (Index.load (Index.save idx)).pkgs =
      ((idx.pkgs.map Prod.fst).mergeSort pyStrLe).map
        (fun x => (x, (⟨savedVersions ((idx.pkgs.lookup x).getD {})⟩ :
          PackageIndex))) := by
    rw [Index.save, Index.load, List.map_map]
    apply List.map_congr_left
    intro x _
    simp only [Function.comp]
    congr 1
    rw [savedVersions, List.map_map]
    rfl
  refine ⟨?_, ?_, ?_⟩
  · intro p v
    rw [lookupVer, hform, lookup_keyed_map]
    by_cases hmem : p ∈ (idx.pkgs.map Prod.fst).mergeSort pyStrLe
    · rw [if_pos hmem]
      have hmem' : p ∈ idx.pkgs.map Prod.fst := List.mem_mergeSort.mp hmem
      rcases hP : idx.pkgs.lookup p with _ | pkgIdx
      · exact absurd ((lookup_eq_none_iff _ _).mp hP) (by simpa using hmem')
      · simp only [Option.getD_some, Option.some_bind]
        rw [lookupVer, hP, Option.some_bind]
        show (savedVersions pkgIdx).lookup v = pkgIdx.versions.lookup v
        rw [savedVersions, lookup_keyed_map]
        rcases hV : pkgIdx.versions.lookup v with _ | e
        · have hm : v ∉ (pkgIdx.versions.map Prod.fst).mergeSort
              (fun a b => versionLe b a) := by
            intro hvm
            exact absurd ((lookup_eq_none_iff _ _).mp hV)
              (by simpa using List.mem_mergeSort.mp hvm)
          rw [if_neg hm]
        · have hm : v ∈ (pkgIdx.versions.map Prod.fst).mergeSort
              (fun a b => versionLe b a) :=
            List.mem_mergeSort.mpr
              (List.mem_map_of_mem Prod.fst (lookup_mem hV))
          rw [if_pos hm]
          rfl
    · rw [if_neg hmem]
      have hnm : p ∉ idx.pkgs.map Prod.fst :=
        fun h => hmem (List.mem_mergeSort.mpr h)
      rw [lookupVer, (lookup_eq_none_iff _ _).mpr hnm]
  · rw [Index.save, List.map_map]
    have hid : (Prod.fst ∘ fun pkg_name =>
        (pkg_name, savedVersions ((idx.pkgs.lookup pkg_name).getD {}))) =
        fun x : String => x := rfl
    rw [hid, List.map_id']
    exact @List.sorted_mergeSort String pyStrLe pyStrLe_trans pyStrLe_total _
  · intro q hq
    rw [Index.save] at hq
    rcases List.mem_map.mp hq with ⟨pkg_name, hpk, rfl⟩
    have hpk' : pkg_name ∈ idx.pkgs.map Prod.fst := List.mem_mergeSort.mp hpk
    rcases hP : idx.pkgs.lookup pkg_name with _ | pkgIdx
    · exact absurd ((lookup_eq_none_iff _ _).mp hP) (by simpa using hpk')
    · simp only [Option.getD_some]
      have hkeys : (savedVersions pkgIdx).map Prod.fst =
          (pkgIdx.versions.map Prod.fst).mergeSort (fun a b => versionLe b a) := by
        rw [savedVersions, List.map_map]
        exact List.map_id' _
      rw [hkeys]
      have hsorted := @List.sorted_mergeSort String (fun a b => versionLe b a)
        (fun a b c h1 h2 => versionGe_trans a b c h1 h2)
        (fun a b => versionGe_total a b)
        (pkgIdx.versions.map Prod.fst)
      refine List.Pairwise.imp_of_mem ?_ hsorted
      intro a b ha hb hab
      have hpq : (pkg_name, pkgIdx) ∈ idx.pkgs := lookup_mem hP
      have hpa : (parseRelease a).isSome = true := by
        rcases List.mem_map.mp (List.mem_mergeSort.mp ha) with ⟨w, hw, rfl⟩
        exact hparse _ hpq w hw
      have hpb : (parseRelease b).isSome = true := by
        rcases List.mem_map.mp (List.mem_mergeSort.mp hb) with ⟨w, hw, rfl⟩
        exact hparse _ hpq w hw
      rcases Option.isSome_iff_exists.mp hpa with ⟨ra, hra⟩
      rcases Option.isSome_iff_exists.mp hpb with ⟨rb, hrb⟩
      refine ⟨ra, rb, hra, hrb, ?_⟩
      rw [versionLe, hra, hrb] at hab
      simpa using hab

/-- C7 witness: the round trip instantiated at a two-package index whose
versions are plain semantic versions, one entry without build
identifiers, and one package holding `1.0` and `1.0.0` — version keys
whose parsed releases compare equal after trailing-zero stripping. -/
theorem save_load_round_trip_witness :
    (∀ q ∈ (Index.mk [("b", ⟨[("24.5.0", ⟨"s1", "t1", none⟩),
        ("24.10.0", ⟨"s2", "t2", some [("x", "p")]⟩)]⟩), ("a", ⟨[("1.0", ⟨"s3", "t3", none⟩), ("1.0.0", ⟨"s4", "t4", none⟩)]⟩)]).pkgs,
      ∀ w ∈ q.2.versions, (parseRelease w.1).isSome = true) ∧
    ((∀ p v, lookupVer (Index.load (Index.save
        ⟨[("b", ⟨[("24.5.0", ⟨"s1", "t1", none⟩),
          ("24.10.0", ⟨"s2", "t2", some [("x", "p")]⟩)]⟩), ("a", ⟨[("1.0", ⟨"s3", "t3", none⟩), ("1.0.0", ⟨"s4", "t4", none⟩)]⟩)]⟩)) p v =
      lookupVer ⟨[("b", ⟨[("24.5.0", ⟨"s1", "t1", none⟩),
          ("24.10.0", ⟨"s2", "t2", some [("x", "p")]⟩)]⟩), ("a", ⟨[("1.0", ⟨"s3", "t3", none⟩), ("1.0.0", ⟨"s4", "t4", none⟩)]⟩)]⟩ p v) ∧
    List.Pairwise (fun a b => pyStrLe a b = true)
      ((Index.save ⟨[("b", ⟨[("24.5.0", ⟨"s1", "t1", none⟩),
          ("24.10.0", ⟨"s2", "t2", some [("x", "p")]⟩)]⟩),
        ("a", ⟨[("1.0", ⟨"s3", "t3", none⟩), ("1.0.0", ⟨"s4", "t4", none⟩)]⟩)]⟩).map Prod.fst) ∧
    (∀ q ∈ Index.save ⟨[("b", ⟨[("24.5.0", ⟨"s1", "t1", none⟩),
          ("24.10.0", ⟨"s2", "t2", some [("x", "p")]⟩)]⟩), ("a", ⟨[("1.0", ⟨"s3", "t3", none⟩), ("1.0.0", ⟨"s4", "t4", none⟩)]⟩)]⟩,
      List.Pairwise
        (fun a b => ∃ ra rb, parseRelease a = some ra ∧ parseRelease b = some rb ∧
          releaseLe rb ra = true) (q.2.map Prod.fst))) :=
  ⟨by decide,
    save_load_round_trip
      ⟨[("b", ⟨[("24.5.0", ⟨"s1", "t1", none⟩),
        ("24.10.0", ⟨"s2", "t2", some [("x", "p")]⟩)]⟩), ("a", ⟨[("1.0", ⟨"s3", "t3", none⟩), ("1.0.0", ⟨"s4", "t4", none⟩)]⟩)]⟩
      (by decide)⟩

end NixpkgsIndex
